import Mathlib

/-!
Verification of the interface-information netlink message codec
(pyroute2/netlink/rtnl/ifinfmsg.py): flag catalogue and masks, the
flag-name translator, the operational-state table, the counter blocks,
the link-info variant resolver, the netns file-descriptor attribute and
the fixed message header.
-/

namespace Ifinfmsg

/-- Error taxonomy of the codec, following section 7 of the design. -/
inductive CodecErr where
  | UnknownFlagName
  | UnknownStateName
  | UnknownStateCode
  | TruncatedCounters
  | ResourceOpenFailure
  | EncodeFailure
deriving DecidableEq

/-! Interface flag constants, as declared at the top of the module. -/

def IFF_UP : Nat := 0x1
def IFF_BROADCAST : Nat := 0x2
def IFF_DEBUG : Nat := 0x4
def IFF_LOOPBACK : Nat := 0x8
def IFF_POINTOPOINT : Nat := 0x10
def IFF_NOTRAILERS : Nat := 0x20
def IFF_RUNNING : Nat := 0x40
def IFF_NOARP : Nat := 0x80
def IFF_PROMISC : Nat := 0x100
def IFF_ALLMULTI : Nat := 0x200
def IFF_MASTER : Nat := 0x400
def IFF_SLAVE : Nat := 0x800
def IFF_MULTICAST : Nat := 0x1000
def IFF_PORTSEL : Nat := 0x2000
def IFF_AUTOMEDIA : Nat := 0x4000
def IFF_DYNAMIC : Nat := 0x8000
def IFF_LOWER_UP : Nat := 0x10000
def IFF_DORMANT : Nat := 0x20000
def IFF_ECHO : Nat := 0x40000

/-- Union of the settable flags, computed at initialization. -/
def IFF_MASK : Nat :=
  IFF_UP ||| IFF_DEBUG ||| IFF_NOTRAILERS ||| IFF_NOARP ||| IFF_PROMISC |||
  IFF_ALLMULTI

/-- Union of the volatile, kernel-managed flags, computed at initialization. -/
def IFF_VOLATILE : Nat :=
  IFF_LOOPBACK ||| IFF_POINTOPOINT ||| IFF_BROADCAST ||| IFF_ECHO |||
  IFF_MASTER ||| IFF_SLAVE ||| IFF_RUNNING ||| IFF_LOWER_UP ||| IFF_DORMANT

/-- Modelled from the spec: the flag catalogue built by map_namespace
(pyroute2.common, outside src) from the IFF constants: symbolic flag names
mapped to their single-bit values, kept in declaration order of the
constants, which is the iteration order of the catalogue. -/
def iff_catalogue : List (String × Nat) :=
  [("up", IFF_UP), ("broadcast", IFF_BROADCAST), ("debug", IFF_DEBUG),
   ("loopback", IFF_LOOPBACK), ("pointopoint", IFF_POINTOPOINT),
   ("notrailers", IFF_NOTRAILERS), ("running", IFF_RUNNING),
   ("noarp", IFF_NOARP), ("promisc", IFF_PROMISC),
   ("allmulti", IFF_ALLMULTI), ("master", IFF_MASTER),
   ("slave", IFF_SLAVE), ("multicast", IFF_MULTICAST),
   ("portsel", IFF_PORTSEL), ("automedia", IFF_AUTOMEDIA),
   ("dynamic", IFF_DYNAMIC), ("lower_up", IFF_LOWER_UP),
   ("dormant", IFF_DORMANT), ("echo", IFF_ECHO)]

/-- Name-to-bit lookup in the flag catalogue (the IFF_NAMES mapping). -/
def IFF_NAMES (s : String) : Option Nat :=
  (iff_catalogue.find? (fun p => p.1 == s)).map Prod.snd

/-- Tests the negation convention: the name starts with the bang character. -/
def isNeg (s : String) : Bool :=
  match s.data with
  | [] => false
  | c :: _ => c == '!'

/-- Strips the leading bang from a negated flag name. -/
def baseName (s : String) : String :=
  if isNeg s then ⟨s.data.drop 1⟩ else s

/-- The flags2names static method: every catalogue name whose bit is fully
set in flags restricted by mask, in catalogue iteration order. -/
def flags2names (flags : Nat) (mask : Nat) : List String :=
  (iff_catalogue.filter (fun p => p.2 &&& mask &&& flags == p.2)).map Prod.fst

/-- Loop of the names2flags static method: a non-negated name ORs its bit
into the result and the mask, a negated name only into the mask; a name
outside the catalogue is a lookup failure. -/
def names2flagsAux : List String → Nat → Nat → Except CodecErr (Nat × Nat)
  | [], ret, mask => .ok (ret, mask)
  | f :: rest, ret, mask =>
    match IFF_NAMES (baseName f) with
    | none => .error CodecErr.UnknownFlagName
    | some bit =>
      names2flagsAux rest (if isNeg f then ret else ret ||| bit) (mask ||| bit)

/-- The names2flags static method. -/
def names2flags (fl : List String) : Except CodecErr (Nat × Nat) :=
  names2flagsAux fl 0 0

/-! Operational state table and its one-byte codec. -/

/-- The fixed ordered table of operational state names. -/
def states : List String :=
  ["UNKNOWN", "NOTPRESENT", "DOWN", "LOWERLAYERDOWN", "TESTING", "DORMANT",
   "UP"]

/-- The state_by_name dictionary: name to index in the states table. -/
def state_by_name (s : String) : Option Nat :=
  states.indexOf? s

/-- The state_by_code dictionary: index in the states table to name. -/
def state_by_code (code : Nat) : Option String :=
  states.get? code

/-- Encode path of the state NLA: reverse name-to-code lookup; a name
outside the table is a lookup failure. -/
def state_encode (s : String) : Except CodecErr Nat :=
  match state_by_name s with
  | some code => .ok code
  | none => .error CodecErr.UnknownStateName

/-- Decode path of the state NLA: code-to-name lookup through the table. -/
def state_decode (code : Nat) : Except CodecErr String :=
  match state_by_code code with
  | some s => .ok s
  | none => .error CodecErr.UnknownStateCode

/-! Fixed header fields and primitive widths. -/

/-- Modelled from the spec: byte widths of the struct format characters
used by the primitive field codec (pyroute2.netlink, outside src):
B is one byte, H two, i and I four, Q eight. -/
def fmtSize (c : Char) : Nat :=
  if c == 'B' then 1
  else if c == 'H' then 2
  else if c == 'i' then 4
  else if c == 'I' then 4
  else if c == 'Q' then 8
  else 0

/-- The fields tuple of ifinfbase: name and struct format of each fixed
header field, in wire order. -/
def ifinfbase_fields : List (String × Char) :=
  [("family", 'B'), ("__align", 'B'), ("ifi_type", 'H'), ("index", 'i'),
   ("flags", 'I'), ("change", 'I')]

/-- Claim C1 (counterexample): the declared fixed-field widths of the
message header (B, B, H, i, I, I - family, alignment pad, link-type, index,
flags, change-mask) sum to 16 bytes, not 12; the claimed total of 12 is
false for the very field table the claim cites. -/
theorem header_fixed_width_not_12 :
    ¬ (ifinfbase_fields.map (fun p => fmtSize p.2)).sum = 12 := by
  decide

/-- Claim C1 (amended): the sum of the declared fixed-field widths of the
message header is exactly 16 bytes (widths 1, 1, 2, 4, 4, 4 in wire
order), so encode produces and decode consumes exactly 16 bytes before
the first attribute. -/
theorem header_fixed_width_is_16 :
    (ifinfbase_fields.map (fun p => fmtSize p.2)).sum = 16 ∧
    ifinfbase_fields.map (fun p => fmtSize p.2) = [1, 1, 2, 4, 4, 4] := by
  decide

/-- Claim C9: the settable mask and the volatile mask computed at
initialization are bitwise disjoint, and have the documented values. -/
theorem iff_mask_volatile_disjoint :
    IFF_MASK &&& IFF_VOLATILE = 0 ∧
    IFF_MASK = 0x3A5 ∧ IFF_VOLATILE = 0x70C5A := by
  decide

/-- Claim C6: state byte 6 decodes to UP, name DOWN encodes to byte 2, and
a name outside the fixed seven-entry table fails with UnknownStateName. -/
theorem operstate_concrete :
    state_decode 6 = .ok "UP" ∧
    state_encode "DOWN" = .ok 2 ∧
    state_encode "BOGUS" = .error CodecErr.UnknownStateName ∧
    states.length = 7 :=
  ⟨rfl, rfl, rfl, rfl⟩

/-- Claim C4: encoding the names up and negated promisc yields value 0x1
and mask 0x101, and decoding that pair yields exactly the name up. -/
theorem flags_concrete_roundtrip :
    names2flags ["up", "!promisc"] = .ok (0x1, 0x101) ∧
    flags2names 0x1 0x101 = ["up"] :=
  ⟨rfl, rfl⟩

/-! Scoped resource attribute (the netns_fd NLA), embedded as an explicit
state machine over the set of OS-level open file descriptors. -/

/-- Configured value of the netns_fd attribute: either a literal integer
file descriptor or a network namespace name. -/
inductive NetnsValue where
  | fd (n : Nat)
  | name (s : String)
deriving DecidableEq

/-- State visible to one netns_fd attribute instance: the fd recorded in
its netns_fd slot (initially none), the OS-level set of descriptors it
holds open, the encoded value field, and a count of open calls issued. -/
structure NetnsSt where
  netns_fd : Option Nat
  osOpen : List Nat
  value : Option Nat
  opens : Nat
deriving DecidableEq

/-- Fresh attribute instance: no recorded fd, nothing open. -/
def netnsInit : NetnsSt :=
  ⟨none, [], none, 0⟩

/-- The close method: if a fd is recorded in the netns_fd slot, close it at
the OS level; the slot itself is not reset by the source. -/
def netns_close (st : NetnsSt) : NetnsSt :=
  match st.netns_fd with
  | none => st
  | some fd => { st with osOpen := st.osOpen.erase fd }

/-- The encode method of the netns_fd NLA. It first calls close, then
either takes a literal integer value as the wire value directly, or opens
the named namespace under netns_run_dir (the opened descriptor is freshFd
when the open succeeds), records it in netns_fd and uses it as the wire
value; then the inherited nla.encode runs, whose success is innerOk. -/
def netns_encode (st : NetnsSt) (v : NetnsValue) (openOk : Bool)
    (freshFd : Nat) (innerOk : Bool) : NetnsSt × Except CodecErr Unit :=
  let st1 := netns_close st
  match v with
  | .fd n =>
    ({ st1 with value := some n },
     if innerOk then .ok () else .error CodecErr.EncodeFailure)
  | .name _ =>
    let st2 := { st1 with opens := st1.opens + 1 }
    if openOk then
      ({ st2 with
          netns_fd := some freshFd
          osOpen := freshFd :: st2.osOpen
          value := some freshFd },
       if innerOk then .ok () else .error CodecErr.EncodeFailure)
    else
      (st2, .error CodecErr.ResourceOpenFailure)

/-- Claim C3 (counterexample): encoding a namespace name from a fresh
attribute succeeds and returns with the freshly opened descriptor still
open and recorded, so the handle is not closed before the encode call
returns. -/
theorem netns_fd_left_open_after_encode :
    (netns_encode netnsInit (.name "testns") true 7 true).2 = .ok () ∧
    (netns_encode netnsInit (.name "testns") true 7 true).1.osOpen = [7] ∧
    (netns_encode netnsInit (.name "testns") true 7 true).1.netns_fd
      = some 7 :=
  ⟨rfl, rfl, rfl⟩

/-- Claim C3 (amended): an encode call that opens a handle from a resource
name does not close that handle before returning; instead it closes any
handle recorded by a previous encode call at its start, records the new
handle, and leaves it open on every exit path of the call (success or
failure of the remaining encode steps); the handle is released later by
the close method, which the destructor and the next encode call invoke. -/
theorem netns_fd_handle_lifetime (st : NetnsSt) (s : String) (fresh : Nat)
    (innerOk : Bool) :
    (netns_encode st (.name s) true fresh innerOk).1.netns_fd
      = some fresh ∧
    (netns_encode st (.name s) true fresh innerOk).1.osOpen
      = fresh :: (netns_close st).osOpen ∧
    (netns_close (netns_encode st (.name s) true fresh innerOk).1).osOpen
      = (netns_close st).osOpen := by
  refine ⟨rfl, rfl, ?_⟩
  simp [netns_encode, netns_close]

/-- Claim C8: encoding with a literal integer handle uses that integer as
the wire value and issues no open; encoding with a name issues exactly one
open. -/
theorem netns_fd_literal_no_open (st : NetnsSt) (n fresh : Nat)
    (openOk innerOk : Bool) (s : String) :
    ((netns_encode st (.fd n) openOk fresh innerOk).1.opens = st.opens ∧
     (netns_encode st (.fd n) openOk fresh innerOk).1.value = some n) ∧
    (netns_encode st (.name s) openOk fresh innerOk).1.opens
      = st.opens + 1 := by
  refine ⟨⟨?_, rfl⟩, ?_⟩
  · simp [netns_encode, netns_close]
    cases h : st.netns_fd <;> simp
  · simp only [netns_encode]
    cases openOk <;> simp [netns_close] <;> cases h : st.netns_fd <;> simp

/-! Link-info variant resolver. -/

/-- Decode strategies the info_data resolver can return for the payload of
the data attribute inside a link-info group. -/
inductive InfoDataStrategy where
  | vlan_data
  | bond_data
  | veth_data
  | hex
deriving DecidableEq

/-- Modelled from the spec: get_attr of the base message class (outside
src) reads the value of a named, already-decoded sibling attribute; none
when the attribute is absent. -/
def get_attr (attrs : List (String × String)) (nm : String) :
    Option String :=
  (attrs.find? (fun p => p.1 == nm)).map Prod.snd

/-- The info_data resolver: picks the sub-schema for the data attribute
from the decoded sibling selector IFLA_INFO_KIND; hex for every unknown
kind and when the kind is not known. -/
def info_data (attrs : List (String × String)) : InfoDataStrategy :=
  match get_attr attrs "IFLA_INFO_KIND" with
  | some k =>
    if k == "vlan" then .vlan_data
    else if k == "bond" then .bond_data
    else if k == "veth" then .veth_data
    else .hex
  | none => .hex

/-- Claim C5: with decoded sibling kind vlan the resolver returns the VLAN
sub-schema; for any kind outside the known set, or when the kind attribute
is absent, it returns the opaque hex fallback without failing. -/
theorem info_data_resolution (attrs : List (String × String)) :
    (get_attr attrs "IFLA_INFO_KIND" = some "vlan" →
      info_data attrs = .vlan_data) ∧
    (∀ k, get_attr attrs "IFLA_INFO_KIND" = some k →
      k ≠ "vlan" → k ≠ "bond" → k ≠ "veth" → info_data attrs = .hex) ∧
    (get_attr attrs "IFLA_INFO_KIND" = none → info_data attrs = .hex) := by
  refine ⟨fun h => ?_, fun k h h1 h2 h3 => ?_, fun h => ?_⟩ <;>
    simp [info_data, h]
  simp [h1, h2, h3]

/-- Claim C5 (witness): concrete resolver runs for kind vlan, an unknown
kind, and an absent kind attribute. -/
theorem info_data_resolution_witness :
    info_data [("IFLA_INFO_KIND", "vlan")] = .vlan_data ∧
    info_data [("IFLA_INFO_KIND", "unknown-driver")] = .hex ∧
    info_data [] = .hex :=
  ⟨(info_data_resolution [("IFLA_INFO_KIND", "vlan")]).1 rfl,
   (info_data_resolution [("IFLA_INFO_KIND", "unknown-driver")]).2.1
     "unknown-driver" rfl (by decide) (by decide) (by decide),
   (info_data_resolution []).2.2 rfl⟩

/-! Message encode: conversion of symbolic flags (claim C10). -/

/-- The flags field of a message under construction: either already a
numeric mask or a collection of symbolic names (set, tuple or list in the
source). -/
inductive FlagsField where
  | num (n : Nat)
  | names (l : List String)
deriving DecidableEq

/-- Fixed-header fields of an interface-info message as handed to encode. -/
structure IfinfHeader where
  family : Nat
  ifi_type : Nat
  index : Int
  flags : FlagsField
  change : Nat
deriving DecidableEq

/-- The encode method of ifinfbase: when the flags field holds a
collection of names it is replaced by the computed bit value and the
change field is overwritten with the touched mask from the same list;
otherwise the header goes to the inherited encode unchanged. -/
def ifinf_encode (h : IfinfHeader) : Except CodecErr IfinfHeader :=
  match h.flags with
  | .names l =>
    (names2flags l).map
      (fun vm => { h with flags := .num vm.1, change := vm.2 })
  | .num _ => .ok h

/-- Claim C10: encode rewrites the flags and change fields exactly when
flags holds a name collection - flags becomes the computed value, change
becomes the touched mask regardless of the caller-supplied change, and no
other header field moves; a numeric flags field passes the whole header
through unchanged. -/
theorem ifinf_encode_flag_conversion (h : IfinfHeader) :
    (∀ n, h.flags = .num n → ifinf_encode h = .ok h) ∧
    (∀ l v m, h.flags = .names l → names2flags l = .ok (v, m) →
      ifinf_encode h = .ok { h with flags := .num v, change := m }) := by
  refine ⟨fun n hn => ?_, fun l v m hl hvm => ?_⟩
  · simp [ifinf_encode, hn]
  · simp [ifinf_encode, hl, hvm, Except.map]

/-- Claim C10 (witness): a name-collection flags field is converted and
overwrites the caller change value 255; a numeric flags field and its
change value 255 pass through untouched. -/
theorem ifinf_encode_flag_conversion_witness :
    ifinf_encode ⟨0, 1, 2, .names ["up", "!promisc"], 255⟩
      = .ok ⟨0, 1, 2, .num 0x1, 0x101⟩ ∧
    ifinf_encode ⟨0, 1, 2, .num 9, 255⟩ = .ok ⟨0, 1, 2, .num 9, 255⟩ :=
  ⟨(ifinf_encode_flag_conversion ⟨0, 1, 2, .names ["up", "!promisc"], 255⟩).2
     ["up", "!promisc"] 0x1 0x101 rfl rfl,
   (ifinf_encode_flag_conversion ⟨0, 1, 2, .num 9, 255⟩).1 9 rfl⟩

/-! Counter blocks (the ifstats and ifstats64 NLAs). -/

/-- The fixed ordered list of 23 statistic names. -/
def stats_names : List String :=
  ["rx_packets", "tx_packets", "rx_bytes", "tx_bytes", "rx_errors",
   "tx_errors", "rx_dropped", "tx_dropped", "multicast", "collisions",
   "rx_length_errors", "rx_over_errors", "rx_crc_errors",
   "rx_frame_errors", "rx_fifo_errors", "rx_missed_errors",
   "tx_aborted_errors", "tx_carrier_errors", "tx_fifo_errors",
   "tx_heartbeat_errors", "tx_window_errors", "rx_compressed",
   "tx_compressed"]

/-- The fields list of the ifstats NLA: every statistic name at format I. -/
def ifstats_fields : List (String × Char) :=
  stats_names.map (fun i => (i, 'I'))

/-- The fields list of the ifstats64 NLA: every statistic name at
format Q. -/
def ifstats64_fields : List (String × Char) :=
  stats_names.map (fun i => (i, 'Q'))

/-- Modelled from the spec: the primitive field codec (pyroute2.netlink,
outside src) writes an unsigned integer as w bytes, least significant
first. -/
def toLE : Nat → Nat → List Nat
  | 0, _ => []
  | w + 1, n => n % 256 :: toLE w (n / 256)

/-- Modelled from the spec: the primitive field codec reads w bytes,
least significant first, back into an unsigned integer. -/
def fromLE : List Nat → Nat
  | [] => 0
  | b :: bs => b + 256 * fromLE bs

/-- Modelled from the spec: encoding a counter block writes each counter
as a w-byte field, consuming the record in declaration order. -/
def encodeCounters (w : Nat) : List (String × Nat) → List Nat
  | [] => []
  | (_, v) :: rest => toLE w v ++ encodeCounters w rest

/-- Modelled from the spec: decoding a counter block reads one w-byte
field per name in declaration order, failing with TruncatedCounters when
the payload runs short. -/
def decodeCounters (w : Nat) : List String → List Nat →
    Except CodecErr (List (String × Nat))
  | [], _ => .ok []
  | nm :: rest, bytes =>
    if bytes.length < w then .error CodecErr.TruncatedCounters
    else
      (decodeCounters w rest (bytes.drop w)).map
        (fun t => (nm, fromLE (bytes.take w)) :: t)

theorem toLE_length (w : Nat) : ∀ n, (toLE w n).length = w := by
  induction w with
  | zero => intro n; rfl
  | succ w ih => intro n; simp [toLE, ih]

theorem fromLE_toLE (w : Nat) : ∀ n, n < 256 ^ w → fromLE (toLE w n) = n := by
  induction w with
  | zero =>
    intro n h
    simp [pow_zero] at h
    simp [h, toLE, fromLE]
  | succ w ih =>
    intro n h
    have hdiv : n / 256 < 256 ^ w := by
      rw [Nat.div_lt_iff_lt_mul (by norm_num : 0 < 256)]
      calc n < 256 ^ (w + 1) := h
        _ = 256 ^ w * 256 := by ring
    simp [toLE, fromLE, ih (n / 256) hdiv]
    omega

theorem decode_encode_counters (w : Nat) :
    ∀ m : List (String × Nat), (∀ p ∈ m, p.2 < 256 ^ w) →
      decodeCounters w (m.map Prod.fst) (encodeCounters w m) = .ok m := by
  intro m
  induction m with
  | nil => intro _; rfl
  | cons p rest ih =>
    intro hv
    obtain ⟨nm, v⟩ := p
    have hlen : (toLE w v ++ encodeCounters w rest).length =
        w + (encodeCounters w rest).length := by
      simp [toLE_length]
    have htake : (toLE w v ++ encodeCounters w rest).take w = toLE w v :=
      List.take_left' (toLE_length w v)
    have hdrop : (toLE w v ++ encodeCounters w rest).drop w =
        encodeCounters w rest :=
      List.drop_left' (toLE_length w v)
    have hrest := ih (fun q hq => hv q (List.mem_cons_of_mem _ hq))
    simp only [List.map_cons, encodeCounters, decodeCounters, hlen, htake,
      hdrop, hrest]
    have : ¬ w + (encodeCounters w rest).length < w := by omega
    simp [this, Except.map,
      fromLE_toLE w v (hv (nm, v) (List.mem_cons_self _ _))]

/-- Claim C7: for every complete mapping of the 23 counter names (in
declaration order) to values representable in the declared width (4-byte
I counters of ifstats or 8-byte Q counters of ifstats64), decoding the
encoding at the same width returns the original mapping, and the two
width variants share the same field-name ordering. -/
theorem counters_roundtrip (w : Nat) (m : List (String × Nat))
    (hw : w = fmtSize 'I' ∨ w = fmtSize 'Q')
    (hnames : m.map Prod.fst = stats_names)
    (hv : ∀ p ∈ m, p.2 < 256 ^ w) :
    decodeCounters w stats_names (encodeCounters w m) = .ok m ∧
    ifstats_fields.map Prod.fst = ifstats64_fields.map Prod.fst := by
  constructor
  · rw [← hnames]
    exact decode_encode_counters w m hv
  · rfl

/-- Claim C7 (witness): a concrete 23-entry counter record with 4-byte
counters decodes back from its encoding. -/
theorem counters_roundtrip_witness :
    decodeCounters 4 stats_names
        (encodeCounters 4 (stats_names.map (fun n => (n, 3))))
      = .ok (stats_names.map (fun n => (n, 3))) ∧
    ifstats_fields.map Prod.fst = ifstats64_fields.map Prod.fst :=
  counters_roundtrip 4 (stats_names.map (fun n => (n, 3)))
    (Or.inl rfl) rfl (by decide)

/-! Round trip of the flag translator (claim C2). -/

/-- The non-negated entries of a flag-name list. -/
def nonNegNames (L : List String) : List String :=
  L.filter (fun f => !(isNeg f))

/-- Bits ORed into the value by the non-negated names of a list. -/
def setBitsOf : List String → Nat
  | [] => 0
  | f :: rest =>
    (if isNeg f then 0 else (IFF_NAMES (baseName f)).getD 0) |||
      setBitsOf rest

/-- Bits ORed into the touched mask by all names of a list. -/
def allBitsOf : List String → Nat
  | [] => 0
  | f :: rest => (IFF_NAMES (baseName f)).getD 0 ||| allBitsOf rest

theorem iff_cat_and_pairwise :
    ∀ p ∈ iff_catalogue, ∀ q ∈ iff_catalogue,
      p.2 &&& q.2 = if p.2 = q.2 then p.2 else 0 := by
  decide

theorem iff_cat_nonzero : ∀ p ∈ iff_catalogue, p.2 ≠ 0 := by
  decide

theorem iff_cat_val_inj :
    ∀ p ∈ iff_catalogue, ∀ q ∈ iff_catalogue, p.2 = q.2 → p.1 = q.1 := by
  decide

theorem iff_cat_name_inj :
    ∀ p ∈ iff_catalogue, ∀ q ∈ iff_catalogue, p.1 = q.1 → p.2 = q.2 := by
  decide

theorem IFF_NAMES_mem {s : String} {b : Nat} (h : IFF_NAMES s = some b) :
    (s, b) ∈ iff_catalogue := by
  unfold IFF_NAMES at h
  cases hf : iff_catalogue.find? (fun p => p.1 == s) with
  | none => rw [hf] at h; simp at h
  | some q =>
    rw [hf] at h
    simp only [Option.map_some'] at h
    have hq : q.1 = s := by simpa using List.find?_some hf
    have hmem := List.mem_of_find?_eq_some hf
    have hqe : q = (s, b) := by
      cases q
      simp_all
    rw [← hqe]
    exact hmem

theorem mem_IFF_NAMES {s : String} {b : Nat} (h : (s, b) ∈ iff_catalogue) :
    IFF_NAMES s = some b := by
  have hs : (iff_catalogue.find? (fun p => p.1 == s)).isSome := by
    rw [List.find?_isSome]
    exact ⟨(s, b), h, by simp⟩
  cases hf : iff_catalogue.find? (fun p => p.1 == s) with
  | none => rw [hf] at hs; simp at hs
  | some q =>
    have hq1 : q.1 = s := by simpa using List.find?_some hf
    have hqmem := List.mem_of_find?_eq_some hf
    have hq2 : q.2 = b := iff_cat_name_inj q hqmem (s, b) h (by simpa)
    unfold IFF_NAMES
    rw [hf]
    simp [hq2]

theorem names2flagsAux_eq :
    ∀ (L : List String) (r m : Nat),
      (∀ f ∈ L, (IFF_NAMES (baseName f)).isSome = true) →
      names2flagsAux L r m = .ok (r ||| setBitsOf L, m ||| allBitsOf L) := by
  intro L
  induction L with
  | nil =>
    intro r m _
    simp [names2flagsAux, setBitsOf, allBitsOf]
  | cons f rest ih =>
    intro r m hv
    have hf : (IFF_NAMES (baseName f)).isSome :=
      hv f (List.mem_cons_self _ _)
    obtain ⟨bit, hbit⟩ := Option.isSome_iff_exists.mp hf
    have hrest : ∀ g ∈ rest, (IFF_NAMES (baseName g)).isSome = true :=
      fun g hg => hv g (List.mem_cons_of_mem _ hg)
    simp only [names2flagsAux, hbit]
    rw [ih _ _ hrest]
    simp only [setBitsOf, allBitsOf, hbit, Option.getD_some]
    cases hneg : isNeg f <;> simp [Nat.or_assoc]

theorem and_setBitsOf :
    ∀ L : List String,
      (∀ f ∈ L, (IFF_NAMES (baseName f)).isSome = true) →
      ∀ b nm, (nm, b) ∈ iff_catalogue →
      b &&& setBitsOf L =
        if ∃ f ∈ L, isNeg f = false ∧ IFF_NAMES (baseName f) = some b
        then b else 0 := by
  intro L
  induction L with
  | nil =>
    intro _ b nm _
    simp [setBitsOf]
  | cons f rest ih =>
    intro hv b nm hmem
    have hf : (IFF_NAMES (baseName f)).isSome :=
      hv f (List.mem_cons_self _ _)
    obtain ⟨bit, hbit⟩ := Option.isSome_iff_exists.mp hf
    have hrest : ∀ g ∈ rest, (IFF_NAMES (baseName g)).isSome = true :=
      fun g hg => hv g (List.mem_cons_of_mem _ hg)
    have hihr := ih hrest b nm hmem
    cases hneg : isNeg f with
    | true =>
      have hcnd :
          (∃ g ∈ f :: rest,
              isNeg g = false ∧ IFF_NAMES (baseName g) = some b) ↔
          ∃ g ∈ rest, isNeg g = false ∧ IFF_NAMES (baseName g) = some b := by
        constructor
        · rintro ⟨g, hg, hgneg, hgb⟩
          rcases List.mem_cons.mp hg with rfl | hg'
          · rw [hneg] at hgneg
            cases hgneg
          · exact ⟨g, hg', hgneg, hgb⟩
        · rintro ⟨g, hg, hgp⟩
          exact ⟨g, List.mem_cons_of_mem f hg, hgp⟩
      have h0 : setBitsOf (f :: rest) = setBitsOf rest := by
        simp [setBitsOf, hneg]
      rw [h0, hihr]
      simp only [hcnd]
    | false =>
      have hbitmem : (baseName f, bit) ∈ iff_catalogue := IFF_NAMES_mem hbit
      have hpair : b &&& bit = if b = bit then b else 0 :=
        iff_cat_and_pairwise (nm, b) hmem (baseName f, bit) hbitmem
      have h0 : setBitsOf (f :: rest) = bit ||| setBitsOf rest := by
        simp [setBitsOf, hneg, hbit]
      rw [h0, Nat.and_or_distrib_left, hihr]
      by_cases hbb : b = bit
      · have hcnd :
            ∃ g ∈ f :: rest,
              isNeg g = false ∧ IFF_NAMES (baseName g) = some b :=
          ⟨f, List.mem_cons_self _ _, hneg, by rw [hbit, hbb]⟩
        rw [hpair, if_pos hbb, if_pos hcnd]
        by_cases hc : ∃ g ∈ rest,
            isNeg g = false ∧ IFF_NAMES (baseName g) = some b
        · rw [if_pos hc, Nat.or_self]
        · rw [if_neg hc, Nat.or_zero]
      · have hcnd :
            (∃ g ∈ f :: rest,
                isNeg g = false ∧ IFF_NAMES (baseName g) = some b) ↔
            ∃ g ∈ rest,
              isNeg g = false ∧ IFF_NAMES (baseName g) = some b := by
          constructor
          · rintro ⟨g, hg, hgneg, hgb⟩
            rcases List.mem_cons.mp hg with rfl | hg'
            · rw [hbit] at hgb
              exact absurd (Option.some.inj hgb).symm hbb
            · exact ⟨g, hg', hgneg, hgb⟩
          · rintro ⟨g, hg, hgp⟩
            exact ⟨g, List.mem_cons_of_mem f hg, hgp⟩
        rw [hpair, if_neg hbb, Nat.zero_or]
        simp only [hcnd]

theorem and_allBitsOf :
    ∀ L : List String,
      (∀ f ∈ L, (IFF_NAMES (baseName f)).isSome = true) →
      ∀ b nm, (nm, b) ∈ iff_catalogue →
      b &&& allBitsOf L =
        if ∃ f ∈ L, IFF_NAMES (baseName f) = some b then b else 0 := by
  intro L
  induction L with
  | nil =>
    intro _ b nm _
    simp [allBitsOf]
  | cons f rest ih =>
    intro hv b nm hmem
    have hf : (IFF_NAMES (baseName f)).isSome :=
      hv f (List.mem_cons_self _ _)
    obtain ⟨bit, hbit⟩ := Option.isSome_iff_exists.mp hf
    have hrest : ∀ g ∈ rest, (IFF_NAMES (baseName g)).isSome = true :=
      fun g hg => hv g (List.mem_cons_of_mem _ hg)
    have hihr := ih hrest b nm hmem
    have hbitmem : (baseName f, bit) ∈ iff_catalogue := IFF_NAMES_mem hbit
    have hpair : b &&& bit = if b = bit then b else 0 :=
      iff_cat_and_pairwise (nm, b) hmem (baseName f, bit) hbitmem
    have h0 : allBitsOf (f :: rest) = bit ||| allBitsOf rest := by
      simp [allBitsOf, hbit]
    rw [h0, Nat.and_or_distrib_left, hihr]
    by_cases hbb : b = bit
    · have hcnd : ∃ g ∈ f :: rest, IFF_NAMES (baseName g) = some b :=
        ⟨f, List.mem_cons_self _ _, by rw [hbit, hbb]⟩
      rw [hpair, if_pos hbb, if_pos hcnd]
      by_cases hc : ∃ g ∈ rest, IFF_NAMES (baseName g) = some b
      · rw [if_pos hc, Nat.or_self]
      · rw [if_neg hc, Nat.or_zero]
    · have hcnd :
          (∃ g ∈ f :: rest, IFF_NAMES (baseName g) = some b) ↔
          ∃ g ∈ rest, IFF_NAMES (baseName g) = some b := by
        constructor
        · rintro ⟨g, hg, hgb⟩
          rcases List.mem_cons.mp hg with rfl | hg'
          · rw [hbit] at hgb
            exact absurd (Option.some.inj hgb).symm hbb
          · exact ⟨g, hg', hgb⟩
        · rintro ⟨g, hg, hgp⟩
          exact ⟨g, List.mem_cons_of_mem f hg, hgp⟩
      rw [hpair, if_neg hbb, Nat.zero_or]
      simp only [hcnd]

theorem flags2names_cond (L : List String)
    (hv : ∀ f ∈ L, (IFF_NAMES (baseName f)).isSome = true)
    {nm : String} {b : Nat} (hmem : (nm, b) ∈ iff_catalogue) :
    b &&& allBitsOf L &&& setBitsOf L = b ↔ nm ∈ nonNegNames L := by
  have hset := and_setBitsOf L hv b nm hmem
  have hne : b ≠ 0 := iff_cat_nonzero (nm, b) hmem
  have hswap : b &&& allBitsOf L &&& setBitsOf L
      = b &&& setBitsOf L &&& allBitsOf L := by
    rw [Nat.and_assoc, Nat.and_assoc, Nat.and_comm (allBitsOf L)]
  constructor
  · intro h
    by_cases hc : ∃ f ∈ L, isNeg f = false ∧ IFF_NAMES (baseName f) = some b
    · obtain ⟨f, hfL, hfneg, hfb⟩ := hc
      have hbase : baseName f = f := by
        simp [baseName, hfneg]
      rw [hbase] at hfb
      have hfcat : (f, b) ∈ iff_catalogue := IFF_NAMES_mem hfb
      have hnmf : nm = f := iff_cat_val_inj (nm, b) hmem (f, b) hfcat rfl
      rw [hnmf]
      simp [nonNegNames, List.mem_filter, hfL, hfneg]
    · exfalso
      rw [if_neg hc] at hset
      rw [hswap, hset, Nat.zero_and] at h
      exact hne h.symm
  · intro hnm
    have hmemL : nm ∈ L ∧ isNeg nm = false := by
      have := List.mem_filter.mp hnm
      exact ⟨this.1, by simpa using this.2⟩
    have hb : IFF_NAMES nm = some b := mem_IFF_NAMES hmem
    have hbase : baseName nm = nm := by
      simp [baseName, hmemL.2]
    have hc : ∃ f ∈ L, isNeg f = false ∧ IFF_NAMES (baseName f) = some b :=
      ⟨nm, hmemL.1, hmemL.2, by rw [hbase]; exact hb⟩
    have hcall : ∃ f ∈ L, IFF_NAMES (baseName f) = some b :=
      ⟨nm, hmemL.1, by rw [hbase]; exact hb⟩
    have hall := and_allBitsOf L hv b nm hmem
    rw [if_pos hc] at hset
    rw [if_pos hcall] at hall
    rw [hswap, hset, hall]

/-- Claim C2: for a flag-name list without duplicate base names, every
name in the catalogue and optionally bang-prefixed, names2flags succeeds
and feeding its (value, mask) pair back through flags2names returns
exactly the non-negated names of the list, ordered by catalogue
declaration order. -/
theorem names_flags_roundtrip (L : List String)
    (hvalid : ∀ f ∈ L, (IFF_NAMES (baseName f)).isSome = true)
    (hnodup : (L.map baseName).Nodup) :
    ∃ v m, names2flags L = .ok (v, m) ∧
      flags2names v m
        = (iff_catalogue.map Prod.fst).filter
            (fun nm => nm ∈ nonNegNames L) ∧
      (∀ nm, nm ∈ flags2names v m ↔ nm ∈ nonNegNames L) := by
  refine ⟨setBitsOf L, allBitsOf L, ?_, ?_, ?_⟩
  · unfold names2flags
    rw [names2flagsAux_eq L 0 0 hvalid]
    simp
  · unfold flags2names
    rw [List.filter_map]
    congr 1
    apply List.filter_congr
    intro p hp
    have hcond := @flags2names_cond L hvalid p.1 p.2 (by simpa using hp)
    by_cases hc : p.1 ∈ nonNegNames L
    · simp [Function.comp, hc, hcond.mpr hc]
    · have hno : ¬ p.2 &&& allBitsOf L &&& setBitsOf L = p.2 :=
        fun he => hc (hcond.mp he)
      simp [Function.comp, hc, hno]
  · intro nm
    constructor
    · intro h
      unfold flags2names at h
      obtain ⟨p, hp, hpe⟩ := List.mem_map.mp h
      have hpmem := (List.mem_filter.mp hp).1
      have hpc := (List.mem_filter.mp hp).2
      have hcond := @flags2names_cond L hvalid p.1 p.2
        (by simpa using hpmem)
      rw [hpe] at hcond
      exact hcond.mp (by simpa using hpc)
    · intro hnm
      have hmemL : nm ∈ L ∧ isNeg nm = false := by
        have := List.mem_filter.mp hnm
        exact ⟨this.1, by simpa using this.2⟩
      have hbase : baseName nm = nm := by
        simp [baseName, hmemL.2]
      have hsome : (IFF_NAMES (baseName nm)).isSome = true :=
        hvalid nm hmemL.1
      rw [hbase] at hsome
      obtain ⟨b, hb⟩ := Option.isSome_iff_exists.mp hsome
      have hcat : (nm, b) ∈ iff_catalogue := IFF_NAMES_mem hb
      have hcond := flags2names_cond L hvalid hcat
      unfold flags2names
      refine List.mem_map.mpr ⟨(nm, b), List.mem_filter.mpr ⟨hcat, ?_⟩, rfl⟩
      simpa using hcond.mpr hnm

/-- Claim C2 (witness): the round trip at the concrete name list up,
negated promisc, multicast. -/
theorem names_flags_roundtrip_witness :
    ∃ v m, names2flags ["up", "!promisc", "multicast"] = .ok (v, m) ∧
      flags2names v m
        = (iff_catalogue.map Prod.fst).filter
            (fun nm => nm ∈ nonNegNames ["up", "!promisc", "multicast"]) ∧
      (∀ nm, nm ∈ flags2names v m ↔
        nm ∈ nonNegNames ["up", "!promisc", "multicast"]) :=
  names_flags_roundtrip ["up", "!promisc", "multicast"] (by decide)
    (by decide)

end Ifinfmsg
